import Mathlib

/-!
Verification of the RHT backprojection and angle-matching subsystem of
`functions_rht.py` (functions `RHTanglediff`, `fRHTthetadict`,
`fRHTbackprojection`).

Embedding conventions:
* numpy float arrays become `List ℚ`; 2-D images become a structure holding
  the two axis lengths and a total read function over cells;
* Python exceptions become an `Except PyErr _` result; the constructors of
  `PyErr` record which statement of the source raised
  (`shapeMismatch` = the `hthets[index]` list access in `fRHTthetadict`,
  `indexOutOfRange` = the `backproj[j,i]` array store in `fRHTbackprojection`,
  `keyNotFound` = a dict subscript, `nameError` = use of an undefined name);
* a Python dict built by successive `d[key] = v` assignments is embedded as
  the list of those assignments in order, with lookup returning the value of
  the LAST assignment to the key (exactly CPython's overwrite semantics);
* pixel coordinates are pairs of naturals, per the data model (non-negative
  integer pixel indices).
-/

/-- Errors raised by the embedded Python code; each constructor names the
source statement that raises it. -/
inductive PyErr where
  | shapeMismatch
  | indexOutOfRange
  | keyNotFound
  | nameError
  deriving DecidableEq

/-- A pixel coordinate `(i, j)`: the pair stored as dict key in
`fRHTthetadict` (`RHT_theta_dict[i,j] = theta`). -/
abbrev Pixel := ℕ × ℕ

/-- A Python dict from pixels to numpy arrays, represented as the ordered
list of assignments that built it. -/
abbrev PixelDict := List (Pixel × List ℚ)

/-- Dict lookup: the value of the last assignment to `k`, if any
(later `d[key] = v` assignments overwrite earlier ones). -/
def dictGet (d : PixelDict) (k : Pixel) : Option (List ℚ) :=
  match d with
  | [] => none
  | (k₀, v₀) :: rest =>
    match dictGet rest k with
    | some w => some w
    | none => if k₀ = k then some v₀ else none

/-- Embeds `fRHTthetadict(ijpoints, hthets)` (src/functions_rht.py:107-126):
`for index in range(len(ijpoints)): i,j = ijpoints[index]; RHT_theta_dict[i,j] = hthets[index]`.
The subscript `hthets[index]` raises IndexError exactly when
`len(hthets) < len(ijpoints)` (a longer `hthets` is silently ignored);
otherwise the dict is the list of assignments `(ijpoints[index], hthets[index])`
in index order. -/
def fRHTthetadict (ijpoints : List Pixel) (hthets : List (List ℚ)) :
    Except PyErr PixelDict :=
  if ijpoints.length ≤ hthets.length then .ok (ijpoints.zip hthets)
  else .error .shapeMismatch

/-- The store-construction path from three parallel sequences, as performed
at src/functions_rht.py:145-146: `ijpoints = zip(ipoints, jpoints)`
(Python `zip` truncates to the shorter sequence) followed by
`fRHTthetadict(ijpoints, hthets)`. -/
def build (ipoints jpoints : List ℕ) (hthets : List (List ℚ)) :
    Except PyErr PixelDict :=
  fRHTthetadict (ipoints.zip jpoints) hthets

/-- Embeds the masking at src/functions_rht.py:152-154:
`hthets_masked = np.copy(hthets); hthets_masked[:15+1] = 0.0; hthets_masked[-15:] = 0.0`.
Entry `k` of the result is `0` when `k < 15 + 1` (the first slice) or
`len(hthets) ≤ k + 15` (the last slice, i.e. `k ≥ len - 15`), and is
`hthets[k]` otherwise. -/
def maskHthets (hthets : List ℚ) : List ℚ :=
  (List.range hthets.length).map fun k =>
    if k < 15 + 1 ∨ hthets.length ≤ k + 15 then 0 else hthets.getD k 0

/-- The set of positions that the two slice assignments of
src/functions_rht.py:153-154 set to zero, for a distribution of length `L`. -/
def maskedPositions (L : ℕ) : Finset ℕ :=
  (Finset.range L).filter fun k => k < 15 + 1 ∨ L ≤ k + 15

/-- A 2-D numpy array of shape `(naxis2, naxis1)`: row axis length `naxis2`,
column axis length `naxis1`, read through `data row col` (only cells with
`row < naxis2` and `col < naxis1` exist; the function is total for
convenience and is `0` off the grid throughout this development). -/
structure Image where
  naxis2 : ℕ
  naxis1 : ℕ
  data : ℕ → ℕ → ℚ

/-- Embeds `np.zeros(shape=(naxis2, naxis1))` (src/functions_rht.py:143). -/
def npZeros (naxis2 naxis1 : ℕ) : Image :=
  ⟨naxis2, naxis1, fun _ _ => 0⟩

/-- Embeds the store `backproj[r, c] = v` on a 2-D array: numpy raises
IndexError when `r` or `c` is outside the corresponding axis (coordinates
here are naturals, so only the upper bounds apply). -/
def imgSet (img : Image) (r c : ℕ) (v : ℚ) : Except PyErr Image :=
  if r < img.naxis2 ∧ c < img.naxis1 then
    .ok { img with data := fun r₀ c₀ => if r₀ = r ∧ c₀ = c then v else img.data r₀ c₀ }
  else .error .indexOutOfRange

/-- One iteration of the loop at src/functions_rht.py:148-156:
`hthets = hthets_dict[i,j]` (dict subscript), mask, sum, then
`backproj[j,i] = hthets_sum` — note the transposed store `[j, i]`. -/
def backprojStep (d : PixelDict) (img : Image) (ij : Pixel) : Except PyErr Image :=
  match dictGet d ij with
  | none => .error .keyNotFound
  | some hthets => imgSet img ij.2 ij.1 (maskHthets hthets).sum

/-- Embeds `fRHTbackprojection(ipoints, jpoints, hthets, naxis1, naxis2)`
(src/functions_rht.py:128-158). -/
def fRHTbackprojection (ipoints jpoints : List ℕ) (hthets : List (List ℚ))
    (naxis1 naxis2 : ℕ) : Except PyErr Image := do
  let backproj := npZeros naxis2 naxis1
  let ijpoints := ipoints.zip jpoints
  let d ← fRHTthetadict ijpoints hthets
  ijpoints.foldlM (backprojStep d) backproj

/-- Embeds `np.where(hthets > 0)[0]`: the indices of the strictly positive
entries, in increasing order. -/
def npWhereGt0 (hthets : List ℚ) : List ℕ :=
  (List.range hthets.length).filter fun k => decide (0 < hthets.getD k 0)

/-- Embeds numpy fancy indexing `angles[idxs]`: raises IndexError when some
index is out of range, otherwise selects the indexed entries. -/
def fancyIndex (angles : List ℚ) (idxs : List ℕ) : Except PyErr (List ℚ) :=
  if idxs.all fun k => decide (k < angles.length) then
    .ok (idxs.map fun k => angles.getD k 0)
  else .error .indexOutOfRange

/-- Embeds `RHTanglediff` (src/functions_rht.py:62-105).  The loop body
executes, per pixel: the two dict subscripts (lines 85-86), the two fancy
indexings `angles[np.where(hthets > 0)[0]]` (lines 88-89), the means and
sums (lines 91-95, which raise nothing), and then
`intensity_diff_polgrad.append(intensity_polgrad)` (line 96) — but the name
`intensity_diff_polgrad` is never bound anywhere in the module, so this
statement raises NameError on the very first iteration.  Hence a non-empty
pixel list never returns: the only successful run is the empty one, which
returns two empty arrays (lines 102-105). -/
def RHTanglediff (ijpoints : List Pixel) (dictPolgrad dictHI : PixelDict)
    (anglesPolgrad anglesHI : List ℚ) : Except PyErr (List ℚ × List ℚ) :=
  match ijpoints with
  | [] => .ok ([], [])
  | pixel :: _ =>
    match dictGet dictPolgrad pixel with
    | none => .error .keyNotFound
    | some hthetsPolgrad =>
      match dictGet dictHI pixel with
      | none => .error .keyNotFound
      | some hthetsHI =>
        match fancyIndex anglesPolgrad (npWhereGt0 hthetsPolgrad) with
        | .error e => .error e
        | .ok _ =>
          match fancyIndex anglesHI (npWhereGt0 hthetsHI) with
          | .error e => .error e
          | .ok _ => .error .nameError

/-- Constructor test for `Except`, used to state that a call succeeded. -/
def exceptOk {ε α : Type} : Except ε α → Bool
  | .ok _ => true
  | .error _ => false

/-- Total intensity written by the backprojection for the pixel key `k` of
dict `d`: the masked sum of its stored distribution. -/
def maskedSumAt (d : PixelDict) (k : Pixel) : ℚ :=
  (maskHthets ((dictGet d k).getD [])).sum

/-- Sum of every cell of the image grid. -/
def cellSum (img : Image) : ℚ :=
  ∑ r ∈ Finset.range img.naxis2, ∑ c ∈ Finset.range img.naxis1, img.data r c

/-! Helper lemmas about the dict embedding. -/

theorem except_ok_bind {ε α β : Type} (a : α) (f : α → Except ε β) :
    (Except.ok a : Except ε α) >>= f = f a := rfl

theorem except_error_bind {ε α β : Type} (e : ε) (f : α → Except ε β) :
    (Except.error e : Except ε α) >>= f = Except.error e := rfl

theorem dictGet_isSome {d : PixelDict} {k : Pixel} {v : List ℚ}
    (h : (k, v) ∈ d) : (dictGet d k).isSome = true := by
  induction d with
  | nil => simp at h
  | cons e rest ih =>
    obtain ⟨k₀, v₀⟩ := e
    rcases List.mem_cons.mp h with he | hrest
    · rw [dictGet]
      cases hr : dictGet rest k with
      | some w => simp
      | none =>
        have hk : k₀ = k := by
          have := congrArg Prod.fst he
          simpa using this.symm
        simp [hk]
    · rw [dictGet]
      cases hr : dictGet rest k with
      | some w => simp
      | none => simp [hr] at ih; exact absurd (ih hrest) (by simp)

theorem mem_of_dictGet {d : PixelDict} {k : Pixel} {v : List ℚ}
    (h : dictGet d k = some v) : (k, v) ∈ d := by
  induction d with
  | nil => simp [dictGet] at h
  | cons e rest ih =>
    obtain ⟨k₀, v₀⟩ := e
    rw [dictGet] at h
    cases hr : dictGet rest k with
    | some w =>
      rw [hr] at h
      simp only [Option.some.injEq] at h
      exact List.mem_cons_of_mem _ (ih (hr.trans (by rw [h])))
    | none =>
      rw [hr] at h
      by_cases hk : k₀ = k
      · subst hk
        rw [if_pos rfl] at h
        injection h with hv
        rw [← hv]
        exact List.mem_cons_self _ _
      · simp [hk] at h

theorem dictGet_eq_none {d : PixelDict} {k : Pixel}
    (h : ∀ v, (k, v) ∉ d) : dictGet d k = none := by
  cases hd : dictGet d k with
  | none => rfl
  | some v => exact absurd (mem_of_dictGet hd) (h v)

theorem dictGet_append (d₁ d₂ : PixelDict) (k : Pixel) :
    dictGet (d₁ ++ d₂) k =
      match dictGet d₂ k with
      | some w => some w
      | none => dictGet d₁ k := by
  induction d₁ with
  | nil =>
    simp only [List.nil_append]
    cases dictGet d₂ k <;> rfl
  | cons e rest ih =>
    obtain ⟨k₀, v₀⟩ := e
    show dictGet ((k₀, v₀) :: (rest ++ d₂)) k = _
    rw [dictGet, ih]
    conv_rhs => rw [dictGet]
    cases dictGet d₂ k <;> cases dictGet rest k <;> simp

theorem exists_mem_zip {α β : Type} {a : α} {l : List α} {l₂ : List β}
    (ha : a ∈ l) (hlen : l.length ≤ l₂.length) : ∃ b, (a, b) ∈ l.zip l₂ := by
  induction l generalizing l₂ with
  | nil => simp at ha
  | cons x t ih =>
    cases l₂ with
    | nil => simp at hlen
    | cons y t₂ =>
      rcases List.mem_cons.mp ha with rfl | hat
      · exact ⟨y, by simp⟩
      · obtain ⟨b, hb⟩ := ih hat (by simpa using Nat.le_of_succ_le_succ hlen)
        exact ⟨b, List.mem_cons_of_mem _ hb⟩

/-! Characterization of the backprojection loop. -/

theorem foldlM_backproj_ok (d : PixelDict) (l : List Pixel) (img : Image)
    (hsome : ∀ ij ∈ l, (dictGet d ij).isSome = true)
    (hb : ∀ ij ∈ l, ij.2 < img.naxis2 ∧ ij.1 < img.naxis1) :
    ∃ imgF, l.foldlM (backprojStep d) img = .ok imgF ∧
      imgF.naxis2 = img.naxis2 ∧ imgF.naxis1 = img.naxis1 ∧
      ∀ r c, imgF.data r c =
        if (c, r) ∈ l then maskedSumAt d (c, r) else img.data r c := by
  induction l generalizing img with
  | nil => exact ⟨img, rfl, rfl, rfl, by simp⟩
  | cons ij t ih =>
    obtain ⟨h, hh⟩ := Option.isSome_iff_exists.mp (hsome ij (List.mem_cons_self ij t))
    have hbij := hb ij (List.mem_cons_self ij t)
    have hstep : backprojStep d img ij = .ok
        { img with data := fun r c =>
            if r = ij.2 ∧ c = ij.1 then maskedSumAt d ij else img.data r c } := by
      simp [backprojStep, hh, imgSet, hbij, maskedSumAt]
    obtain ⟨imgF, hF, hn2, hn1, hdata⟩ :=
      ih { img with data := fun r c =>
            if r = ij.2 ∧ c = ij.1 then maskedSumAt d ij else img.data r c }
        (fun p hp => hsome p (List.mem_cons_of_mem _ hp))
        (fun p hp => hb p (List.mem_cons_of_mem _ hp))
    refine ⟨imgF, ?_, hn2, hn1, ?_⟩
    · rw [List.foldlM_cons, hstep, except_ok_bind, hF]
    · intro r c
      rw [hdata r c]
      by_cases hmem : (c, r) ∈ t
      · simp [hmem]
      · by_cases hij : ij = (c, r)
        · subst hij
          simp [hmem]
        · have hne : ¬(r = ij.2 ∧ c = ij.1) := by
            rintro ⟨h1, h2⟩
            exact hij (by obtain ⟨i, j⟩ := ij; simp_all)
          simp [hmem, hne, List.mem_cons, Ne.symm hij]

theorem foldlM_backproj_err (d : PixelDict) (l : List Pixel) (img : Image)
    (hsome : ∀ ij ∈ l, (dictGet d ij).isSome = true)
    (hbad : ∃ ij ∈ l, ¬(ij.2 < img.naxis2 ∧ ij.1 < img.naxis1)) :
    l.foldlM (backprojStep d) img = .error .indexOutOfRange := by
  induction l generalizing img with
  | nil => simp at hbad
  | cons ij t ih =>
    obtain ⟨h, hh⟩ := Option.isSome_iff_exists.mp (hsome ij (List.mem_cons_self ij t))
    by_cases hbij : ij.2 < img.naxis2 ∧ ij.1 < img.naxis1
    · have hstep : backprojStep d img ij = .ok
          { img with data := fun r c =>
              if r = ij.2 ∧ c = ij.1 then maskedSumAt d ij else img.data r c } := by
        simp [backprojStep, hh, imgSet, hbij, maskedSumAt]
      rw [List.foldlM_cons, hstep, except_ok_bind]
      apply ih
      · exact fun p hp => hsome p (List.mem_cons_of_mem _ hp)
      · obtain ⟨p, hp, hpbad⟩ := hbad
        rcases List.mem_cons.mp hp with rfl | hpt
        · exact absurd hbij hpbad
        · exact ⟨p, hpt, hpbad⟩
    · have hstep : backprojStep d img ij = .error .indexOutOfRange := by
        simp [backprojStep, hh, imgSet, hbij]
      rw [List.foldlM_cons, hstep, except_error_bind]

/-! Lemmas about the edge masking and the backprojection wrapper. -/

theorem maskHthets_length (h : List ℚ) : (maskHthets h).length = h.length := by
  simp [maskHthets]

theorem maskHthets_getD {h : List ℚ} {k : ℕ} (hk : k < h.length) :
    (maskHthets h).getD k 0 =
      if k ∈ maskedPositions h.length then 0 else h.getD k 0 := by
  have hk2 : k < (maskHthets h).length := by rw [maskHthets_length]; exact hk
  rw [List.getD_eq_getElem _ _ hk2]
  simp [maskHthets, maskedPositions, hk]

theorem maskHthets_sum_eq_zero {h : List ℚ} (hL : h.length ≤ 31) :
    (maskHthets h).sum = 0 := by
  apply List.sum_eq_zero
  intro x hx
  obtain ⟨k, hk, rfl⟩ := List.mem_map.mp hx
  have hklt : k < h.length := List.mem_range.mp hk
  have : k < 15 + 1 ∨ h.length ≤ k + 15 := by omega
  simp [this]

theorem maskedPositions_card {L : ℕ} (hL : 31 ≤ L) :
    (maskedPositions L).card = 31 := by
  have hset : maskedPositions L = Finset.range 16 ∪ Finset.Ico (L - 15) L := by
    ext k
    simp only [maskedPositions, Finset.mem_filter, Finset.mem_range, Finset.mem_union,
      Finset.mem_Ico]
    omega
  have hdisj : Disjoint (Finset.range 16) (Finset.Ico (L - 15) L) := by
    rw [Finset.disjoint_left]
    intro k hk1 hk2
    simp only [Finset.mem_range] at hk1
    simp only [Finset.mem_Ico] at hk2
    omega
  rw [hset, Finset.card_union_of_disjoint hdisj, Finset.card_range, Nat.card_Ico]
  omega

theorem dict_lookup_total (ipoints jpoints : List ℕ) (hthets : List (List ℚ))
    (hlen : (ipoints.zip jpoints).length ≤ hthets.length) :
    ∀ ij ∈ ipoints.zip jpoints,
      (dictGet ((ipoints.zip jpoints).zip hthets) ij).isSome = true := by
  intro ij hij
  obtain ⟨b, hb⟩ := exists_mem_zip hij hlen
  exact dictGet_isSome hb

theorem fRHTbackprojection_eq (ipoints jpoints : List ℕ) (hthets : List (List ℚ))
    (naxis1 naxis2 : ℕ) (hlen : (ipoints.zip jpoints).length ≤ hthets.length) :
    fRHTbackprojection ipoints jpoints hthets naxis1 naxis2 =
      (ipoints.zip jpoints).foldlM (backprojStep ((ipoints.zip jpoints).zip hthets))
        (npZeros naxis2 naxis1) := by
  simp only [fRHTbackprojection, fRHTthetadict]
  rw [if_pos hlen]
  rfl

theorem gridSum_indicator (l : List Pixel) (f : Pixel → ℚ) (n1 n2 : ℕ)
    (hb : ∀ ij ∈ l, ij.1 < n1 ∧ ij.2 < n2) :
    (∑ r ∈ Finset.range n2, ∑ c ∈ Finset.range n1,
        if (c, r) ∈ l then f (c, r) else 0) = ∑ k ∈ l.toFinset, f k := by
  rw [← Finset.sum_product']
  rw [← Finset.sum_filter]
  refine Finset.sum_nbij' (fun p => (p.2, p.1)) (fun k => (k.2, k.1)) ?_ ?_ ?_ ?_ ?_
  · intro p hp
    rw [List.mem_toFinset]
    exact (Finset.mem_filter.mp hp).2
  · intro k hk
    rw [List.mem_toFinset] at hk
    obtain ⟨hk1, hk2⟩ := hb k hk
    rw [Finset.mem_filter]
    refine ⟨Finset.mem_product.mpr ⟨Finset.mem_range.mpr hk2, Finset.mem_range.mpr hk1⟩, ?_⟩
    simpa using hk
  · intro p hp
    rfl
  · intro k hk
    rfl
  · intro p hp
    rfl

/-! Claim theorems. -/

/-- Claim C3: for a store built from in-bounds pixel coordinates,
backprojection succeeds and writes, for every stored pixel `(i, j)`, that
pixel's masked distribution sum at output position `[row = j, col = i]`
(axis order transposed relative to the stored key), while every output cell
that corresponds to no stored pixel holds `0`. -/
theorem C3_backprojection_transposition
    (ipoints jpoints : List ℕ) (hthets : List (List ℚ)) (naxis1 naxis2 : ℕ)
    (hlen : (ipoints.zip jpoints).length ≤ hthets.length)
    (hbounds : ∀ ij ∈ ipoints.zip jpoints, ij.1 < naxis1 ∧ ij.2 < naxis2) :
    ∃ img, fRHTbackprojection ipoints jpoints hthets naxis1 naxis2 = .ok img ∧
      (∀ i j, (i, j) ∈ ipoints.zip jpoints →
        img.data j i = maskedSumAt ((ipoints.zip jpoints).zip hthets) (i, j)) ∧
      (∀ r c, (c, r) ∉ ipoints.zip jpoints → img.data r c = 0) := by
  obtain ⟨imgF, hF, hn2, hn1, hdata⟩ :=
    foldlM_backproj_ok ((ipoints.zip jpoints).zip hthets) (ipoints.zip jpoints)
      (npZeros naxis2 naxis1)
      (dict_lookup_total ipoints jpoints hthets hlen)
      (fun ij hij => ⟨(hbounds ij hij).2, (hbounds ij hij).1⟩)
  refine ⟨imgF, ?_, ?_, ?_⟩
  · rw [fRHTbackprojection_eq _ _ _ _ _ hlen]
    exact hF
  · intro i j hij
    rw [hdata j i]
    simp [hij]
  · intro r c hnot
    rw [hdata r c]
    simp [hnot, npZeros]

/-- Witness for C3: the single pixel `(2, 5)` with a distribution of masked
sum `7`, in a `(10, 10)` image, produces `7` at `[row = 5, col = 2]` and `0`
at every other cell. -/
theorem C3_backprojection_transposition_witness :
    ((([2] : List ℕ).zip [5]).length ≤
        ([List.replicate 16 (0 : ℚ) ++ 7 :: List.replicate 15 0]).length ∧
      (∀ ij ∈ (([2] : List ℕ).zip [5]), ij.1 < 10 ∧ ij.2 < 10)) ∧
    ∃ img, fRHTbackprojection [2] [5]
        [List.replicate 16 (0 : ℚ) ++ 7 :: List.replicate 15 0] 10 10 = .ok img ∧
      img.data 5 2 = 7 ∧
      ∀ r c, (c, r) ≠ ((2 : ℕ), (5 : ℕ)) → img.data r c = 0 := by
  refine ⟨⟨by decide, by decide⟩, ?_⟩
  obtain ⟨img, hok, hwrite, hzero⟩ :=
    C3_backprojection_transposition [2] [5]
      [List.replicate 16 (0 : ℚ) ++ 7 :: List.replicate 15 0] 10 10
      (by decide) (by decide)
  refine ⟨img, hok, ?_, ?_⟩
  · have h7 := hwrite 2 5 (by decide)
    rw [h7]
    have hmask : maskHthets (List.replicate 16 (0 : ℚ) ++ 7 :: List.replicate 15 0) =
        List.replicate 16 (0 : ℚ) ++ 7 :: List.replicate 15 0 := rfl
    have : maskedSumAt ((([2] : List ℕ).zip [5]).zip
          [List.replicate 16 (0 : ℚ) ++ 7 :: List.replicate 15 0]) (2, 5) =
        (maskHthets (List.replicate 16 (0 : ℚ) ++ 7 :: List.replicate 15 0)).sum := rfl
    rw [this, hmask, List.sum_append, List.sum_cons, List.sum_replicate, List.sum_replicate]
    simp
  · intro r c hne
    apply hzero
    simp only [List.zip_cons_cons, List.zip_nil_right, List.mem_singleton]
    exact hne

/-- Claim C5: conservation — for a store with in-bounds pixel coordinates,
the sum over all cells of the backprojection output equals the sum, over
all distinct stored pixels, of their masked (edge-excluded) distribution
sums. -/
theorem C5_conservation
    (ipoints jpoints : List ℕ) (hthets : List (List ℚ)) (naxis1 naxis2 : ℕ)
    (hlen : (ipoints.zip jpoints).length ≤ hthets.length)
    (hbounds : ∀ ij ∈ ipoints.zip jpoints, ij.1 < naxis1 ∧ ij.2 < naxis2) :
    ∃ img, fRHTbackprojection ipoints jpoints hthets naxis1 naxis2 = .ok img ∧
      cellSum img = ∑ k ∈ (ipoints.zip jpoints).toFinset,
        maskedSumAt ((ipoints.zip jpoints).zip hthets) k := by
  obtain ⟨imgF, hF, hn2, hn1, hdata⟩ :=
    foldlM_backproj_ok ((ipoints.zip jpoints).zip hthets) (ipoints.zip jpoints)
      (npZeros naxis2 naxis1)
      (dict_lookup_total ipoints jpoints hthets hlen)
      (fun ij hij => ⟨(hbounds ij hij).2, (hbounds ij hij).1⟩)
  have hn2a : imgF.naxis2 = naxis2 := hn2
  have hn1a : imgF.naxis1 = naxis1 := hn1
  refine ⟨imgF, ?_, ?_⟩
  · rw [fRHTbackprojection_eq _ _ _ _ _ hlen]
    exact hF
  · rw [cellSum, hn2a, hn1a]
    calc
      ∑ r ∈ Finset.range naxis2, ∑ c ∈ Finset.range naxis1, imgF.data r c
          = ∑ r ∈ Finset.range naxis2, ∑ c ∈ Finset.range naxis1,
              (if (c, r) ∈ ipoints.zip jpoints then
                maskedSumAt ((ipoints.zip jpoints).zip hthets) (c, r) else 0) := by
            refine Finset.sum_congr rfl fun r _ => Finset.sum_congr rfl fun c _ => ?_
            rw [hdata r c]
            rfl
      _ = ∑ k ∈ (ipoints.zip jpoints).toFinset,
            maskedSumAt ((ipoints.zip jpoints).zip hthets) k :=
            gridSum_indicator _ _ _ _ hbounds

/-- Witness for C5 at the concrete input of a one-pixel store. -/
theorem C5_conservation_witness :
    ((([1] : List ℕ).zip [2]).length ≤ ([[5]] : List (List ℚ)).length ∧
      (∀ ij ∈ (([1] : List ℕ).zip [2]), ij.1 < 4 ∧ ij.2 < 4)) ∧
    ∃ img, fRHTbackprojection [1] [2] [[5]] 4 4 = .ok img ∧
      cellSum img = ∑ k ∈ ((([1] : List ℕ).zip [2])).toFinset,
        maskedSumAt (((([1] : List ℕ).zip [2])).zip [[5]]) k :=
  ⟨⟨by decide, by decide⟩,
    C5_conservation [1] [2] [[5]] 4 4 (by decide) (by decide)⟩

/-- Claim C9: building from three empty sequences produces the empty store,
and backprojection over it returns the all-zero image of exactly the
declared shape `(naxis2, naxis1)`. -/
theorem C9_empty_build_and_backprojection (naxis1 naxis2 : ℕ) :
    build [] [] [] = .ok ([] : PixelDict) ∧
    fRHTbackprojection [] [] [] naxis1 naxis2 = .ok (npZeros naxis2 naxis1) ∧
    (npZeros naxis2 naxis1).naxis2 = naxis2 ∧
    (npZeros naxis2 naxis1).naxis1 = naxis1 ∧
    ∀ r c, (npZeros naxis2 naxis1).data r c = 0 :=
  ⟨rfl, rfl, rfl, rfl, fun _ _ => rfl⟩

/-- Claim C10: the edge exclusion is hard-coded to 15 (not a parameter), so
whenever every stored distribution has length at most 31 the masking zeroes
all of its entries, and the backprojection image is all-zero regardless of
the stored intensities. -/
theorem C10_short_axis_all_zero
    (ipoints jpoints : List ℕ) (hthets : List (List ℚ)) (naxis1 naxis2 : ℕ)
    (hlen : (ipoints.zip jpoints).length ≤ hthets.length)
    (hbounds : ∀ ij ∈ ipoints.zip jpoints, ij.1 < naxis1 ∧ ij.2 < naxis2)
    (hshort : ∀ h ∈ hthets, h.length ≤ 31) :
    ∃ img, fRHTbackprojection ipoints jpoints hthets naxis1 naxis2 = .ok img ∧
      ∀ r c, img.data r c = 0 := by
  obtain ⟨imgF, hF, hn2, hn1, hdata⟩ :=
    foldlM_backproj_ok ((ipoints.zip jpoints).zip hthets) (ipoints.zip jpoints)
      (npZeros naxis2 naxis1)
      (dict_lookup_total ipoints jpoints hthets hlen)
      (fun ij hij => ⟨(hbounds ij hij).2, (hbounds ij hij).1⟩)
  refine ⟨imgF, ?_, ?_⟩
  · rw [fRHTbackprojection_eq _ _ _ _ _ hlen]
    exact hF
  · intro r c
    rw [hdata r c]
    by_cases hmem : (c, r) ∈ ipoints.zip jpoints
    · rw [if_pos hmem, maskedSumAt]
      cases hd : dictGet ((ipoints.zip jpoints).zip hthets) (c, r) with
      | none => rfl
      | some v =>
        have hv : v ∈ hthets := (List.of_mem_zip (mem_of_dictGet hd)).2
        simp only [Option.getD_some]
        exact maskHthets_sum_eq_zero (hshort v hv)
    · rw [if_neg hmem]
      rfl

/-- Witness for C10: a pixel with nonzero intensities over an angle axis of
length 4 still backprojects to the all-zero image. -/
theorem C10_short_axis_all_zero_witness :
    ((([1] : List ℕ).zip [2]).length ≤ ([[1, 2, 3, 4]] : List (List ℚ)).length ∧
      (∀ ij ∈ (([1] : List ℕ).zip [2]), ij.1 < 5 ∧ ij.2 < 5) ∧
      (∀ h ∈ ([[1, 2, 3, 4]] : List (List ℚ)), h.length ≤ 31)) ∧
    ∃ img, fRHTbackprojection [1] [2] [[1, 2, 3, 4]] 5 5 = .ok img ∧
      ∀ r c, img.data r c = 0 :=
  ⟨⟨by decide, by decide, by decide⟩,
    C10_short_axis_all_zero [1] [2] [[1, 2, 3, 4]] 5 5 (by decide) (by decide) (by decide)⟩

/-- Counterexample to claim C4 as stated: the source hard-codes the edge
exclusion to 15, and for a distribution over an angle axis of length 1 the
two overlapping slice assignments zero exactly one entry, not
`2 * 15 + 1 = 31`. -/
theorem C4_edge_masking_counterexample :
    (maskedPositions 1).card = 1 ∧ (1 : ℕ) ≠ 2 * 15 + 1 ∧
      maskHthets [(5 : ℚ)] = [0] :=
  ⟨rfl, by decide, rfl⟩

/-- Amended claim C4: the edge exclusion is hard-coded to `e = 15`; for a
distribution over an angle axis of length `L ≥ 31` exactly `2 * 15 + 1`
positions are zeroed before summation (the first 16 and the last 15), and
each masked entry is `0` while every other entry keeps its original value. -/
theorem C4_edge_masking_fixed15 (hthets : List ℚ) (hL : 31 ≤ hthets.length) :
    (maskedPositions hthets.length).card = 2 * 15 + 1 ∧
    ∀ k, k < hthets.length →
      (maskHthets hthets).getD k 0 =
        if k ∈ maskedPositions hthets.length then 0 else hthets.getD k 0 := by
  constructor
  · rw [maskedPositions_card hL]
  · intro k hk
    exact maskHthets_getD hk

/-- Witness for the amended C4 on a concrete distribution of length 35. -/
theorem C4_edge_masking_fixed15_witness :
    31 ≤ (List.replicate 35 (1 : ℚ)).length ∧
    ((maskedPositions (List.replicate 35 (1 : ℚ)).length).card = 2 * 15 + 1 ∧
      ∀ k, k < (List.replicate 35 (1 : ℚ)).length →
        (maskHthets (List.replicate 35 (1 : ℚ))).getD k 0 =
          if k ∈ maskedPositions (List.replicate 35 (1 : ℚ)).length then 0
          else (List.replicate 35 (1 : ℚ)).getD k 0) :=
  ⟨by decide, C4_edge_masking_fixed15 (List.replicate 35 (1 : ℚ)) (by decide)⟩

/-- Counterexample to claim C6 as stated: row list `[0]`, empty column list
and empty distribution list have pairwise unequal lengths, yet construction
succeeds (Python `zip` silently truncates), producing the empty store
instead of a ShapeMismatch failure. -/
theorem C6_shape_mismatch_counterexample :
    build [0] ([] : List ℕ) [] = .ok ([] : PixelDict) ∧
      ([0] : List ℕ).length ≠ ([] : List ℕ).length :=
  ⟨rfl, by decide⟩

/-- Amended claim C6: construction fails (with the IndexError raised by
`hthets[index]` — the `shapeMismatch` of the design taxonomy) iff the
distribution list is shorter than the zip of the row and column lists,
i.e. `len(hthets) < min(len(ipoints), len(jpoints))`; every other input,
including row/column lists of unequal length or an over-long distribution
list, is accepted without an exception with extra entries silently dropped. -/
theorem C6_build_failure_iff (ipoints jpoints : List ℕ) (hthets : List (List ℚ)) :
    (build ipoints jpoints hthets = .error .shapeMismatch ↔
      hthets.length < min ipoints.length jpoints.length) ∧
    (build ipoints jpoints hthets = .error .shapeMismatch ∨
      ∃ d, build ipoints jpoints hthets = .ok d) := by
  rw [build, fRHTthetadict]
  split_ifs with hc
  · rw [List.length_zip] at hc
    refine ⟨⟨fun habs => absurd habs (by simp), fun hlt => absurd hc (by omega)⟩, ?_⟩
    exact Or.inr ⟨_, rfl⟩
  · rw [List.length_zip] at hc
    exact ⟨⟨fun _ => by omega, fun _ => rfl⟩, Or.inl rfl⟩

/-- Counterexample to claim C8 as stated: the store holds the single pixel
key `(7, 3)`; reading it as `(row, col)`, its row component `7` is at least
the image height `5`, so the claim predicts an IndexOutOfRange failure, yet
the call succeeds, because the code stores to `backproj[j, i]` and hence
checks the components against the transposed axes. -/
theorem C8_bounds_counterexample :
    exceptOk (fRHTbackprojection [7] [3] [[1]] 10 5) = true ∧ (5 : ℕ) ≤ 7 :=
  ⟨rfl, by decide⟩

/-- Amended claim C8: given a store that builds, backprojection fails with
`IndexOutOfRange` iff some stored pixel `(i, j)` has `j ≥ naxis2` (the image
height) or `i ≥ naxis1` (the image width) — the bound check pairs the first
stored component with the image width and the second with the height,
transposed relative to the claim, because of the `backproj[j, i]` write —
and it returns an image iff every stored pixel satisfies both bounds. -/
theorem C8_bounds_check
    (ipoints jpoints : List ℕ) (hthets : List (List ℚ)) (naxis1 naxis2 : ℕ)
    (hlen : (ipoints.zip jpoints).length ≤ hthets.length) :
    (fRHTbackprojection ipoints jpoints hthets naxis1 naxis2 =
        .error .indexOutOfRange ↔
      ∃ ij ∈ ipoints.zip jpoints, naxis2 ≤ ij.2 ∨ naxis1 ≤ ij.1) ∧
    ((∃ img, fRHTbackprojection ipoints jpoints hthets naxis1 naxis2 = .ok img) ↔
      ∀ ij ∈ ipoints.zip jpoints, ij.2 < naxis2 ∧ ij.1 < naxis1) := by
  rw [fRHTbackprojection_eq _ _ _ _ _ hlen]
  by_cases hc : ∀ ij ∈ ipoints.zip jpoints, ij.2 < naxis2 ∧ ij.1 < naxis1
  · obtain ⟨imgF, hF, _, _, _⟩ :=
      foldlM_backproj_ok ((ipoints.zip jpoints).zip hthets) (ipoints.zip jpoints)
        (npZeros naxis2 naxis1) (dict_lookup_total ipoints jpoints hthets hlen) hc
    rw [hF]
    constructor
    · refine ⟨fun habs => absurd habs (by simp), ?_⟩
      rintro ⟨ij, hij, hbad⟩
      obtain ⟨h1, h2⟩ := hc ij hij
      omega
    · exact ⟨fun _ => hc, fun _ => ⟨imgF, rfl⟩⟩
  · have hbad : ∃ ij ∈ ipoints.zip jpoints, ¬(ij.2 < naxis2 ∧ ij.1 < naxis1) := by
      push_neg at hc
      obtain ⟨ij, hij, hbadc⟩ := hc
      exact ⟨ij, hij, by omega⟩
    have herr := foldlM_backproj_err ((ipoints.zip jpoints).zip hthets)
      (ipoints.zip jpoints) (npZeros naxis2 naxis1)
      (dict_lookup_total ipoints jpoints hthets hlen) hbad
    rw [herr]
    constructor
    · refine ⟨fun _ => ?_, fun _ => rfl⟩
      obtain ⟨ij, hij, hbadc⟩ := hbad
      exact ⟨ij, hij, by omega⟩
    · refine ⟨fun habs => ?_, fun hall => absurd hall hc⟩
      obtain ⟨img, himg⟩ := habs
      simp at himg

/-- Witness for the amended C8: pixel key `(2, 7)` in a width-10, height-5
image fails the `j < naxis2` check, so the call reports IndexOutOfRange. -/
theorem C8_bounds_check_witness :
    (([2] : List ℕ).zip [7]).length ≤ ([[1]] : List (List ℚ)).length ∧
    ((fRHTbackprojection [2] [7] [[1]] 10 5 = .error .indexOutOfRange ↔
        ∃ ij ∈ (([2] : List ℕ).zip [7]), 5 ≤ ij.2 ∨ 10 ≤ ij.1) ∧
      ((∃ img, fRHTbackprojection [2] [7] [[1]] 10 5 = .ok img) ↔
        ∀ ij ∈ (([2] : List ℕ).zip [7]), ij.2 < 5 ∧ ij.1 < 10)) :=
  ⟨by decide, C8_bounds_check [2] [7] [[1]] 10 5 (by decide)⟩

/-- Claim C1 (code bug): for every non-empty shared-pixel sequence the
comparator raises an exception instead of returning the two arrays — on the
first iteration it executes `intensity_diff_polgrad.append(...)` where
`intensity_diff_polgrad` is an undefined name (NameError), unless a dict
lookup or fancy indexing raised even earlier. -/
theorem C1_anglediff_never_returns (pixel : Pixel) (rest : List Pixel)
    (dictPolgrad dictHI : PixelDict) (anglesPolgrad anglesHI : List ℚ) :
    ∃ e, RHTanglediff (pixel :: rest) dictPolgrad dictHI anglesPolgrad anglesHI =
      .error e := by
  cases hA : dictGet dictPolgrad pixel with
  | none => exact ⟨.keyNotFound, by simp [RHTanglediff, hA]⟩
  | some vA =>
    cases hB : dictGet dictHI pixel with
    | none => exact ⟨.keyNotFound, by simp [RHTanglediff, hA, hB]⟩
    | some vB =>
      cases hFA : fancyIndex anglesPolgrad (npWhereGt0 vA) with
      | error e => exact ⟨e, by simp [RHTanglediff, hA, hB, hFA]⟩
      | ok tA =>
        cases hFB : fancyIndex anglesHI (npWhereGt0 vB) with
        | error e => exact ⟨e, by simp [RHTanglediff, hA, hB, hFA, hFB]⟩
        | ok tB => exact ⟨.nameError, by simp [RHTanglediff, hA, hB, hFA, hFB]⟩

/-- Claim C2 (code bug): the comparator is claimed to raise no exception and
at worst produce a silent NaN, but at the specification's own end-to-end
scenario — angle axis `[0, 45, 90, 135]`, field-A distribution
`[0, 3, 0, 5]` and field-B distribution `[2, 0, 4, 0]` at the shared pixel
`(0, 0)`, where both positive-intensity angle subsets are non-empty — the
call raises NameError (`intensity_diff_polgrad` is never defined). -/
theorem C2_anglediff_raises_nameerror :
    RHTanglediff [(0, 0)] [((0, 0), [0, 3, 0, 5])] [((0, 0), [2, 0, 4, 0])]
      [0, 45, 90, 135] [0, 45, 90, 135] = .error .nameError := rfl

/-- Index computation for the zipped association list built by `build`. -/
theorem zipzip_getElem (a b : List ℕ) (c : List (List ℚ)) (m : ℕ)
    (h1 : m < a.length) (h2 : m < b.length) (h3 : m < c.length) :
    ((a.zip b).zip c)[m]? = some ((a.getD m 0, b.getD m 0), c.getD m []) := by
  have hzz : m < ((a.zip b).zip c).length := by
    rw [List.length_zip, List.length_zip]
    omega
  rw [List.getElem?_eq_getElem hzz]
  simp only [List.getElem_zip]
  rw [List.getD_eq_getElem _ _ h1, List.getD_eq_getElem _ _ h2,
    List.getD_eq_getElem _ _ h3]

/-- Claim C7: duplicate-key overwrite — when the build input has several
entries with the same `(row, col)` coordinate, the constructed store maps
that coordinate to the distribution of the latest-indexed such entry, and a
coordinate whose entry has no later duplicate (in particular a unique one)
maps to that entry's distribution. -/
theorem C7_duplicate_key_overwrite
    (ipoints jpoints : List ℕ) (hthets : List (List ℚ))
    (h1 : ipoints.length = jpoints.length) (h2 : jpoints.length = hthets.length)
    (n : ℕ) (hn : n < ipoints.length) (k : Pixel)
    (hk : (ipoints.getD n 0, jpoints.getD n 0) = k)
    (hlast : ∀ m, m < ipoints.length → n < m →
      (ipoints.getD m 0, jpoints.getD m 0) ≠ k) :
    ∃ d, build ipoints jpoints hthets = .ok d ∧
      dictGet d k = some (hthets.getD n []) := by
  have hz : (ipoints.zip jpoints).length = ipoints.length := by
    rw [List.length_zip, h1, min_self]
  have hlen : (ipoints.zip jpoints).length ≤ hthets.length := by
    rw [hz, h1, h2]
  have hbuild : build ipoints jpoints hthets =
      .ok ((ipoints.zip jpoints).zip hthets) := by
    rw [build, fRHTthetadict, if_pos hlen]
  set l := (ipoints.zip jpoints).zip hthets with hldef
  have hll : l.length = ipoints.length := by
    rw [hldef, List.length_zip, hz, h1, h2, min_self]
  have hnl : n < l.length := by omega
  have hnj : n < jpoints.length := by omega
  have hnh : n < hthets.length := by omega
  have hgetn : l[n] = ((ipoints.getD n 0, jpoints.getD n 0), hthets.getD n []) := by
    have hq : l[n]? = some ((ipoints.getD n 0, jpoints.getD n 0), hthets.getD n []) :=
      zipzip_getElem ipoints jpoints hthets n hn hnj hnh
    rw [List.getElem?_eq_getElem hnl] at hq
    exact Option.some.inj hq
  refine ⟨l, hbuild, ?_⟩
  have hsplit : l = l.take n ++ l[n] :: l.drop (n + 1) := by
    conv_lhs => rw [← List.take_append_drop n l]
    rw [List.drop_eq_getElem_cons hnl]
  have hdrop : dictGet (l.drop (n + 1)) k = none := by
    apply dictGet_eq_none
    intro v hmem
    obtain ⟨m, hm, hgm⟩ := List.mem_iff_getElem.mp hmem
    rw [List.getElem_drop] at hgm
    have hmlt : n + 1 + m < l.length := by
      rw [List.length_drop] at hm
      omega
    have hmi : n + 1 + m < ipoints.length := by omega
    have hmj : n + 1 + m < jpoints.length := by omega
    have hmh : n + 1 + m < hthets.length := by omega
    have hgm2 : l[n + 1 + m] =
        ((ipoints.getD (n + 1 + m) 0, jpoints.getD (n + 1 + m) 0),
          hthets.getD (n + 1 + m) []) := by
      have hq : l[n + 1 + m]? =
          some ((ipoints.getD (n + 1 + m) 0, jpoints.getD (n + 1 + m) 0),
            hthets.getD (n + 1 + m) []) :=
        zipzip_getElem ipoints jpoints hthets (n + 1 + m) hmi hmj hmh
      rw [List.getElem?_eq_getElem hmlt] at hq
      exact Option.some.inj hq
    rw [hgm2] at hgm
    have hfst : (ipoints.getD (n + 1 + m) 0, jpoints.getD (n + 1 + m) 0) = k :=
      congrArg Prod.fst hgm
    exact hlast (n + 1 + m) hmi (by omega) hfst
  rw [hsplit, dictGet_append]
  have hcons : dictGet (l[n] :: l.drop (n + 1)) k = some (hthets.getD n []) := by
    rw [hgetn, hk, dictGet, hdrop]
    simp
  rw [hcons]

/-- Witness for C7: two build entries share the coordinate `(1, 2)`; the
store keeps the later distribution `[9]`. -/
theorem C7_duplicate_key_overwrite_witness :
    (([1, 1] : List ℕ).length = ([2, 2] : List ℕ).length ∧
      ([2, 2] : List ℕ).length = ([[5], [9]] : List (List ℚ)).length ∧
      1 < ([1, 1] : List ℕ).length ∧
      (([1, 1] : List ℕ).getD 1 0, ([2, 2] : List ℕ).getD 1 0) = ((1 : ℕ), (2 : ℕ)) ∧
      (∀ m, m < ([1, 1] : List ℕ).length → 1 < m →
        (([1, 1] : List ℕ).getD m 0, ([2, 2] : List ℕ).getD m 0) ≠ ((1 : ℕ), (2 : ℕ)))) ∧
    ∃ d, build [1, 1] [2, 2] [[5], [9]] = .ok d ∧
      dictGet d (1, 2) = some (([[5], [9]] : List (List ℚ)).getD 1 []) :=
  ⟨⟨by decide, by decide, by decide, by decide, by decide⟩,
    C7_duplicate_key_overwrite [1, 1] [2, 2] [[5], [9]] (by decide) (by decide)
      1 (by decide) (1, 2) (by decide) (by decide)⟩
